import Mathlib

/-
Verification of the dropcount crate (src/dropcount.rs).

The crate offers a Counter whose Drop implementation atomically increments a
shared AtomicUsize, and a Viewer that reads it.  We embed the shared atomic
cells as a heap: a list of natural-number values indexed by cell id, with
fresh allocation appending a zero cell.  Each Rust function becomes a pure
Lean function threading the heap; the Drop increment returns Option, with
none modelling the assertion failure (panic) at usize::MAX.
-/

set_option maxHeartbeats 1000000

namespace Dropcount

/-- usize::MAX on a 64 bit target; the assert in Viewer::inc compares against it. -/
def USIZE_MAX : Nat := 2 ^ 64 - 1

/-- Heap of shared atomic counter cells: index is the cell id, entry its value. -/
abbrev Heap := List Nat

/-- Atomic load of cell i (AtomicUsize::load).  Reading an unallocated id
yields 0; well formed programs never do so. -/
def Heap.load : Heap → Nat → Nat
  | [], _ => 0
  | x :: _, 0 => x
  | _ :: h, j + 1 => Heap.load h j

/-- Overwrite cell i with value x; out of range ids leave the heap unchanged. -/
def Heap.store : Heap → Nat → Nat → Heap
  | [], _, _ => []
  | _ :: h, 0, x => x :: h
  | y :: h, j + 1, x => y :: Heap.store h j x

/-- Allocate a fresh cell holding 0 (Arc::new(AtomicUsize::new(0))),
returning its id. -/
def Heap.alloc (h : Heap) : Nat × Heap := (h.length, h ++ [0])

/-- pub struct Viewer(Arc<AtomicUsize>): a handle naming one shared cell. -/
structure Viewer where
  cell : Nat
deriving DecidableEq, Repr

/-- pub struct Counter(Viewer). -/
structure Counter where
  viewer : Viewer
deriving DecidableEq, Repr

/-- Viewer::get: self.0.load(Ordering::Relaxed). -/
def Viewer.get (h : Heap) (v : Viewer) : Nat := Heap.load h v.cell

/-- Viewer::inc: let prev = self.0.fetch_add(1, Relaxed); assert!(prev < usize::MAX).
The none result models the panic of the failed assertion. -/
def Viewer.inc (h : Heap) (v : Viewer) : Option Heap :=
  let prev := Heap.load h v.cell
  if prev < USIZE_MAX then some (Heap.store h v.cell (prev + 1)) else none

/-- Viewer::clone (derived): a second handle to the same cell. -/
def Viewer.clone (v : Viewer) : Viewer := v

/-- Viewer::default (derived): wraps a freshly allocated Arc<AtomicUsize> at 0. -/
def Viewer.default (h : Heap) : Viewer × Heap :=
  let a := Heap.alloc h
  (⟨a.1⟩, a.2)

/-- pub fn new(): allocate one fresh cell, return a Counter and a Viewer
that both name it. -/
def new (h : Heap) : (Counter × Viewer) × Heap :=
  let a := Heap.alloc h
  let viewer : Viewer := ⟨a.1⟩
  let counter : Counter := ⟨viewer.clone⟩
  ((counter, viewer), a.2)

/-- Counter::get: self.0.get(). -/
def Counter.get (h : Heap) (c : Counter) : Nat := Viewer.get h c.viewer

/-- impl Drop for Counter: self.0.inc(). -/
def Counter.drop (h : Heap) (c : Counter) : Option Heap := Viewer.inc h c.viewer

/-- Counter::new: new().0 — the paired Viewer is discarded, never exposed. -/
def Counter.new (h : Heap) : Counter × Heap :=
  let p := Dropcount.new h
  (p.1.1, p.2)

/-- impl Default for Counter: Self::new(). -/
def Counter.default (h : Heap) : Counter × Heap := Counter.new h

/-- pub fn new_vec(size): (0..size).map(new).unzip(), pairs created left to right. -/
def new_vec : Nat → Heap → (List Counter × List Viewer) × Heap
  | 0, h => (([], []), h)
  | n + 1, h =>
    let p := new h
    let q := new_vec n p.2
    ((p.1.1 :: q.1.1, p.1.2 :: q.1.2), q.2)

/- Basic heap lemmas. -/

theorem Heap.load_of_length_le (h : Heap) (j : Nat) (hj : h.length ≤ j) :
    Heap.load h j = 0 := by
  induction h generalizing j with
  | nil => rfl
  | cons x h ih =>
    cases j with
    | zero => simp at hj
    | succ j => exact ih j (by simpa using hj)

theorem Heap.load_append_lt (h t : Heap) (j : Nat) (hj : j < h.length) :
    Heap.load (h ++ t) j = Heap.load h j := by
  induction h generalizing j with
  | nil => simp at hj
  | cons x h ih =>
    cases j with
    | zero => rfl
    | succ j => exact ih j (by simpa using hj)

theorem Heap.load_append_zeros (h t : Heap) (j : Nat) (hz : ∀ x ∈ t, x = 0) :
    Heap.load (h ++ t) j = Heap.load h j := by
  induction h generalizing j with
  | nil =>
    simp only [List.nil_append]
    rw [Heap.load_of_length_le [] j (by simp)]
    induction t generalizing j with
    | nil => rfl
    | cons x t iht =>
      cases j with
      | zero => exact hz x (by simp)
      | succ j => exact iht (fun y hy => hz y (by simp [hy])) j
  | cons x h ih =>
    cases j with
    | zero => rfl
    | succ j => exact ih j

theorem Heap.load_store_self (h : Heap) (i : Nat) (x : Nat) (hi : i < h.length) :
    Heap.load (Heap.store h i x) i = x := by
  induction h generalizing i with
  | nil => simp at hi
  | cons y h ih =>
    cases i with
    | zero => rfl
    | succ i => exact ih i (by simpa using hi)

theorem Heap.load_store_ne (h : Heap) (i j : Nat) (x : Nat) (hij : j ≠ i) :
    Heap.load (Heap.store h i x) j = Heap.load h j := by
  induction h generalizing i j with
  | nil => rfl
  | cons y h ih =>
    cases i with
    | zero =>
      cases j with
      | zero => exact absurd rfl hij
      | succ j => rfl
    | succ i =>
      cases j with
      | zero => rfl
      | succ j => exact ih i j (fun e => hij (by simp [e]))

theorem Heap.length_store (h : Heap) (i x : Nat) :
    (Heap.store h i x).length = h.length := by
  induction h generalizing i with
  | nil => rfl
  | cons y h ih =>
    cases i with
    | zero => rfl
    | succ i => simpa [Heap.store] using ih i

/-- Claim C2: dropcount::new takes only a heap, allocates one fresh cell
initialized to 0, and returns one Counter and one Viewer naming that same
fresh cell; before the Counter is dropped both Viewer::get and Counter::get
read 0. -/
theorem new_spec (h : Heap) :
    ((new h).1.1.viewer = (new h).1.2) ∧
    ((new h).1.2.cell = h.length) ∧
    ((new h).2 = h ++ [0]) ∧
    Viewer.get (new h).2 (new h).1.2 = 0 ∧
    Counter.get (new h).2 (new h).1.1 = 0 := by
  refine ⟨rfl, rfl, rfl, ?_, ?_⟩ <;>
    simp [new, Heap.alloc, Viewer.get, Counter.get, Viewer.clone,
      Heap.load_of_length_le (h ++ [0]) h.length.succ (by simp),
      Heap.load_append_zeros h [0] h.length (by simp),
      Heap.load_of_length_le h h.length (by simp)]

theorem new_heap_load (h : Heap) : Heap.load (new h).2 h.length = 0 := by
  rw [show (new h).2 = h ++ [0] from rfl,
    Heap.load_append_zeros h [0] h.length (by simp),
    Heap.load_of_length_le h h.length (by simp)]

/-- Claim C1: for a pair produced by dropcount::new, dropping the Counter once
increments the shared cell by exactly 1, after which Viewer::get returns 1;
Viewer::clone is pure and returns a handle to the same cell, so a clone taken
before or after the drop reads the same 1. -/
theorem drop_once_counts_one (h : Heap) :
    Counter.drop (new h).2 (new h).1.1 =
      some (Heap.store (new h).2 h.length 1) ∧
    Viewer.get (Heap.store (new h).2 h.length 1) (new h).1.2 =
      Viewer.get (new h).2 (new h).1.2 + 1 ∧
    Viewer.get (Heap.store (new h).2 h.length 1) (new h).1.2 = 1 ∧
    Viewer.get (Heap.store (new h).2 h.length 1) (Viewer.clone (new h).1.2) = 1 := by
  have hload : Heap.load (new h).2 h.length = 0 := new_heap_load h
  have hlen : h.length < ((new h).2).length := by
    simp [new, Heap.alloc]
  have hstore : Heap.load (Heap.store (new h).2 h.length 1) h.length = 1 :=
    Heap.load_store_self _ _ _ hlen
  refine ⟨?_, ?_, ?_, ?_⟩
  · show Viewer.inc (new h).2 ⟨h.length⟩ = _
    simp [Viewer.inc, hload, USIZE_MAX]
  · show Heap.load _ h.length = Heap.load (new h).2 h.length + 1
    rw [hstore, hload]
  · exact hstore
  · exact hstore

/-- Claim C4: the destruction path can be run a second time on the same
Counter value; the model does not prevent it, a second pass yields a count of
2, and in general every successful pass through Counter::drop adds exactly 1
to the cell the paired Viewer reads. -/
theorem double_drop_counts_two (h : Heap) :
    (∀ (g : Heap) (c : Counter) (g2 : Heap), c.viewer.cell < g.length →
      Counter.drop g c = some g2 →
      Viewer.get g2 c.viewer = Viewer.get g c.viewer + 1) ∧
    Counter.drop (new h).2 (new h).1.1 =
      some (Heap.store (new h).2 h.length 1) ∧
    Counter.drop (Heap.store (new h).2 h.length 1) (new h).1.1 =
      some (Heap.store (Heap.store (new h).2 h.length 1) h.length 2) ∧
    Viewer.get (Heap.store (Heap.store (new h).2 h.length 1) h.length 2)
      (new h).1.2 = 2 := by
  have hload : Heap.load (new h).2 h.length = 0 := new_heap_load h
  have hlen : h.length < ((new h).2).length := by
    simp [new, Heap.alloc]
  have hlen2 : h.length < (Heap.store (new h).2 h.length 1).length := by
    rw [Heap.length_store]; exact hlen
  have hstore : Heap.load (Heap.store (new h).2 h.length 1) h.length = 1 :=
    Heap.load_store_self _ _ _ hlen
  refine ⟨?_, ?_, ?_, ?_⟩
  · intro g c g2 hc hdrop
    unfold Counter.drop Viewer.inc at hdrop
    by_cases hlt : Heap.load g c.viewer.cell < USIZE_MAX
    · simp only [hlt, if_pos] at hdrop
      cases hdrop
      exact Heap.load_store_self g c.viewer.cell _ hc
    · simp [hlt] at hdrop
  · show Viewer.inc (new h).2 ⟨h.length⟩ = _
    simp [Viewer.inc, hload, USIZE_MAX]
  · show Viewer.inc (Heap.store (new h).2 h.length 1) ⟨h.length⟩ = _
    simp [Viewer.inc, hstore, USIZE_MAX]
  · exact Heap.load_store_self _ _ _ hlen2

theorem double_drop_counts_two_witness :
    Viewer.get [1] (Counter.mk (Viewer.mk 0)).viewer =
      Viewer.get [0] (Counter.mk (Viewer.mk 0)).viewer + 1 :=
  (double_drop_counts_two []).1 [0] ⟨⟨0⟩⟩ [1] (by decide) (by decide)

/- Lemmas about new_vec. -/

theorem new_vec_heap (n : Nat) (h : Heap) :
    (new_vec n h).2 = h ++ List.replicate n 0 := by
  induction n generalizing h with
  | zero => simp [new_vec]
  | succ n ih =>
    show (new_vec n (new h).2).2 = _
    rw [ih, show (new h).2 = h ++ [0] from rfl, List.append_assoc]
    rfl

theorem new_vec_length (n : Nat) (h : Heap) :
    (new_vec n h).1.1.length = n ∧ (new_vec n h).1.2.length = n := by
  induction n generalizing h with
  | zero => exact ⟨rfl, rfl⟩
  | succ n ih =>
    have := ih (new h).2
    exact ⟨by simpa [new_vec] using this.1, by simpa [new_vec] using this.2⟩

theorem new_vec_get (n : Nat) (h : Heap) (i : Nat) (hi : i < n) :
    (new_vec n h).1.1[i]? = some ⟨⟨h.length + i⟩⟩ ∧
    (new_vec n h).1.2[i]? = some ⟨h.length + i⟩ := by
  induction n generalizing h i with
  | zero => omega
  | succ n ih =>
    have hu1 : (new_vec (n + 1) h).1.1 = (new h).1.1 :: (new_vec n (new h).2).1.1 := rfl
    have hu2 : (new_vec (n + 1) h).1.2 = (new h).1.2 :: (new_vec n (new h).2).1.2 := rfl
    cases i with
    | zero =>
      rw [hu1, hu2]
      constructor
      · rw [List.getElem?_cons_zero]
        rfl
      · rw [List.getElem?_cons_zero]
        rfl
    | succ i =>
      have hrec := ih (new h).2 i (by omega)
      have hl : ((new h).2).length = h.length + 1 := by simp [new, Heap.alloc]
      have harith : h.length + 1 + i = h.length + (i + 1) := by omega
      rw [hu1, hu2]
      constructor
      · rw [List.getElem?_cons_succ, hrec.1, hl, harith]
      · rw [List.getElem?_cons_succ, hrec.2, hl, harith]

theorem new_vec_heap_load (n : Nat) (h : Heap) (i : Nat) :
    Heap.load (new_vec n h).2 (h.length + i) = 0 := by
  rw [new_vec_heap,
    Heap.load_append_zeros h _ _ (fun x hx => List.eq_of_mem_replicate hx),
    Heap.load_of_length_le h _ (by omega)]

/-- Claim C3: new_vec n returns two length n sequences whose i-th elements
share the i-th fresh cell; distinct indices use distinct cells, dropping the
i-th Counter sets the i-th Viewer count to 1 and leaves every other count
unchanged at 0, and n = 0 yields two empty sequences. -/
theorem new_vec_spec (n : Nat) (h : Heap) :
    ((new_vec n h).1.1.length = n) ∧
    ((new_vec n h).1.2.length = n) ∧
    (new_vec 0 h = (([], []), h)) ∧
    (∀ i, i < n →
      ((new_vec n h).1.1[i]?).map Counter.viewer = (new_vec n h).1.2[i]?) ∧
    (∀ (i j : Nat) (ci cj : Counter), (new_vec n h).1.1[i]? = some ci →
      (new_vec n h).1.1[j]? = some cj → i ≠ j →
      ci.viewer.cell ≠ cj.viewer.cell) ∧
    (∀ (i : Nat) (c : Counter), (new_vec n h).1.1[i]? = some c →
      Counter.drop (new_vec n h).2 c =
        some (Heap.store (new_vec n h).2 c.viewer.cell 1) ∧
      (∀ v, (new_vec n h).1.2[i]? = some v →
        Viewer.get (Heap.store (new_vec n h).2 c.viewer.cell 1) v = 1) ∧
      (∀ j v, j ≠ i → (new_vec n h).1.2[j]? = some v →
        Viewer.get (Heap.store (new_vec n h).2 c.viewer.cell 1) v =
          Viewer.get (new_vec n h).2 v ∧
        Viewer.get (Heap.store (new_vec n h).2 c.viewer.cell 1) v = 0)) := by
  have hlen := new_vec_length n h
  have hidx : ∀ i (c : Counter), (new_vec n h).1.1[i]? = some c →
      i < n ∧ c = ⟨⟨h.length + i⟩⟩ := by
    intro i c hc
    have hi : i < n := by
      by_contra hge
      rw [List.getElem?_eq_none (by omega)] at hc
      exact Option.noConfusion hc
    have := (new_vec_get n h i hi).1
    rw [this] at hc
    exact ⟨hi, (Option.some_injective _ hc).symm⟩
  have hvidx : ∀ j (v : Viewer), (new_vec n h).1.2[j]? = some v →
      j < n ∧ v = ⟨h.length + j⟩ := by
    intro j v hv
    have hj : j < n := by
      by_contra hge
      rw [List.getElem?_eq_none (by omega)] at hv
      exact Option.noConfusion hv
    have := (new_vec_get n h j hj).2
    rw [this] at hv
    exact ⟨hj, (Option.some_injective _ hv).symm⟩
  refine ⟨hlen.1, hlen.2, rfl, ?_, ?_, ?_⟩
  · intro i hi
    rw [(new_vec_get n h i hi).1, (new_vec_get n h i hi).2]
    rfl
  · intro i j ci cj hci hcj hij
    obtain ⟨hi, rfl⟩ := hidx i ci hci
    obtain ⟨hj, rfl⟩ := hidx j cj hcj
    simpa using fun e => hij (by omega)
  · intro i c hc
    obtain ⟨hi, rfl⟩ := hidx i c hc
    have hload : Heap.load (new_vec n h).2 (h.length + i) = 0 :=
      new_vec_heap_load n h i
    have hcelllen : h.length + i < ((new_vec n h).2).length := by
      rw [new_vec_heap]
      simp only [List.length_append, List.length_replicate]
      omega
    refine ⟨?_, ?_, ?_⟩
    · show Viewer.inc (new_vec n h).2 ⟨h.length + i⟩ = _
      simp [Viewer.inc, hload, USIZE_MAX]
    · intro v hv
      obtain ⟨-, rfl⟩ := hvidx i v hv
      exact Heap.load_store_self _ _ _ hcelllen
    · intro j v hji hv
      obtain ⟨hj, rfl⟩ := hvidx j v hv
      have hne : h.length + j ≠ h.length + i := by omega
      constructor
      · exact Heap.load_store_ne _ _ _ _ hne
      · rw [show Viewer.get (Heap.store (new_vec n h).2 (h.length + i) 1) ⟨h.length + j⟩ =
            Heap.load (Heap.store (new_vec n h).2 (h.length + i) 1) (h.length + j) from rfl,
          Heap.load_store_ne _ _ _ _ hne]
        exact new_vec_heap_load n h j

theorem new_vec_spec_witness :
    Counter.drop (new_vec 2 []).2 ⟨⟨0⟩⟩ =
      some (Heap.store (new_vec 2 []).2 0 1) ∧
    Viewer.get (Heap.store (new_vec 2 []).2 0 1) ⟨1⟩ = 0 := by
  obtain ⟨hd, hv, hj⟩ :=
    (new_vec_spec 2 []).2.2.2.2.2 0 ⟨⟨0⟩⟩ (by decide)
  exact ⟨hd, (hj 1 ⟨1⟩ (by decide) (by decide)).2⟩

/- A small operational model of the public API: a world is the heap of cells
together with the live handles held by the caller, and a step is one API
call.  Handles are addressed by their position among the live handles. -/

/-- The heap plus the live Counter and Viewer handles held by the caller. -/
structure World where
  heap : Heap
  counters : List Counter
  viewers : List Viewer
deriving DecidableEq, Repr

/-- One public API call of the crate. -/
inductive Op where
  | newPair : Op
  | counterNew : Op
  | newVec : Nat → Op
  | viewerDefault : Op
  | viewerGet : Nat → Op
  | counterGet : Nat → Op
  | viewerClone : Nat → Op
  | viewerDrop : Nat → Op
  | counterDrop : Nat → Op
deriving DecidableEq, Repr

/-- Execute one API call.  The get operations only load and leave the state
unchanged; destroying a Viewer merely releases the handle; destroying a
Counter runs the Drop increment and is the only call that can panic,
modelled as none. -/
def World.step (w : World) : Op → Option World
  | .newPair =>
    let p := new w.heap
    some ⟨p.2, w.counters ++ [p.1.1], w.viewers ++ [p.1.2]⟩
  | .counterNew =>
    let p := Counter.new w.heap
    some ⟨p.2, w.counters ++ [p.1], w.viewers⟩
  | .newVec n =>
    let p := new_vec n w.heap
    some ⟨p.2, w.counters ++ p.1.1, w.viewers ++ p.1.2⟩
  | .viewerDefault =>
    let p := Viewer.default w.heap
    some ⟨p.2, w.counters, w.viewers ++ [p.1]⟩
  | .viewerGet _ => some w
  | .counterGet _ => some w
  | .viewerClone i =>
    match w.viewers[i]? with
    | some v => some ⟨w.heap, w.counters, w.viewers ++ [Viewer.clone v]⟩
    | none => some w
  | .viewerDrop i => some ⟨w.heap, w.counters, w.viewers.eraseIdx i⟩
  | .counterDrop i =>
    match w.counters[i]? with
    | some c =>
      match Counter.drop w.heap c with
      | some h2 => some ⟨h2, w.counters.eraseIdx i, w.viewers⟩
      | none => none
    | none => some w

/-- Run a list of API calls in order; a panic aborts the run. -/
def World.run (w : World) : List Op → Option World
  | [] => some w
  | op :: ops =>
    match World.step w op with
    | some w2 => World.run w2 ops
    | none => none

theorem new_vec_cells_fresh (n : Nat) (h : Heap) (c : Counter)
    (hc : c ∈ (new_vec n h).1.1) : h.length ≤ c.viewer.cell := by
  induction n generalizing h with
  | zero => simp [new_vec] at hc
  | succ n ih =>
    rw [show (new_vec (n + 1) h).1.1 =
        (new h).1.1 :: (new_vec n (new h).2).1.1 from rfl] at hc
    rcases List.mem_cons.mp hc with heq | hmem
    · subst heq
      exact Nat.le_refl _
    · have := ih (new h).2 hmem
      have hl : ((new h).2).length = h.length + 1 := by simp [new, Heap.alloc]
      omega

/-- Any API call other than a Counter destruction leaves every cell value
unchanged (allocation appends fresh zero cells, which read 0 anyway). -/
theorem step_load_eq_of_not_drop (w : World) (op : Op) (w2 : World)
    (hop : ∀ k, op ≠ Op.counterDrop k)
    (hstep : World.step w op = some w2) (j : Nat) :
    Heap.load w2.heap j = Heap.load w.heap j := by
  cases op with
  | newPair =>
    cases hstep
    exact Heap.load_append_zeros w.heap [0] j (by simp)
  | counterNew =>
    cases hstep
    exact Heap.load_append_zeros w.heap [0] j (by simp)
  | newVec n =>
    cases hstep
    show Heap.load (new_vec n w.heap).2 j = _
    rw [new_vec_heap]
    exact Heap.load_append_zeros w.heap _ j
      (fun x hx => List.eq_of_mem_replicate hx)
  | viewerDefault =>
    cases hstep
    exact Heap.load_append_zeros w.heap [0] j (by simp)
  | viewerGet i => cases hstep; rfl
  | counterGet i => cases hstep; rfl
  | viewerClone i =>
    cases hv : w.viewers[i]? with
    | some v => rw [show World.step w (Op.viewerClone i) =
        some ⟨w.heap, w.counters, w.viewers ++ [Viewer.clone v]⟩ from by
          simp [World.step, hv]] at hstep
                cases hstep; rfl
    | none => rw [show World.step w (Op.viewerClone i) = some w from by
        simp [World.step, hv]] at hstep
              cases hstep; rfl
  | viewerDrop i => cases hstep; rfl
  | counterDrop k => exact absurd rfl (hop k)

/-- A successful Counter destruction stores the incremented value at the cell
of the destroyed live Counter. -/
theorem step_drop_heap (w : World) (i : Nat) (c : Counter) (w2 : World)
    (hc : w.counters[i]? = some c)
    (hstep : World.step w (Op.counterDrop i) = some w2) :
    Heap.load w.heap c.viewer.cell < USIZE_MAX ∧
    w2.heap = Heap.store w.heap c.viewer.cell
      (Heap.load w.heap c.viewer.cell + 1) ∧
    w2.counters = w.counters.eraseIdx i := by
  simp only [World.step] at hstep
  rw [hc] at hstep
  unfold Counter.drop Viewer.inc at hstep
  by_cases hlt : Heap.load w.heap c.viewer.cell < USIZE_MAX
  · simp only [hlt, if_pos] at hstep
    cases hstep
    exact ⟨hlt, rfl, rfl⟩
  · simp [hlt] at hstep

/-- Claim C5: an API call panics exactly when it is the destruction of a live
Counter whose shared cell already holds usize::MAX; all other calls, and
destruction below the maximum, cannot fail.  The hypothesis records that
every cell value fits in usize. -/
theorem panic_only_on_overflow (w : World) (op : Op)
    (hbound : ∀ j, Heap.load w.heap j ≤ USIZE_MAX) :
    World.step w op = none ↔
      ∃ (i : Nat) (c : Counter), op = Op.counterDrop i ∧
        w.counters[i]? = some c ∧
        Heap.load w.heap c.viewer.cell = USIZE_MAX := by
  constructor
  · intro hnone
    cases op with
    | newPair => exact Option.noConfusion hnone
    | counterNew => exact Option.noConfusion hnone
    | newVec n => exact Option.noConfusion hnone
    | viewerDefault => exact Option.noConfusion hnone
    | viewerGet i => exact Option.noConfusion hnone
    | counterGet i => exact Option.noConfusion hnone
    | viewerClone i =>
      cases hv : w.viewers[i]? with
      | some v => simp [World.step, hv] at hnone
      | none => simp [World.step, hv] at hnone
    | viewerDrop i => exact Option.noConfusion hnone
    | counterDrop i =>
      cases hc : w.counters[i]? with
      | none => simp [World.step, hc] at hnone
      | some c =>
        refine ⟨i, c, rfl, hc, ?_⟩
        simp only [World.step] at hnone
        rw [hc] at hnone
        unfold Counter.drop Viewer.inc at hnone
        by_cases hlt : Heap.load w.heap c.viewer.cell < USIZE_MAX
        · simp [hlt] at hnone
        · exact Nat.le_antisymm (hbound c.viewer.cell) (Nat.le_of_not_lt hlt)
  · rintro ⟨i, c, rfl, hc, hmax⟩
    simp only [World.step]
    rw [hc]
    unfold Counter.drop Viewer.inc
    simp [hmax]

theorem panic_only_on_overflow_witness :
    World.step ⟨[USIZE_MAX], [⟨⟨0⟩⟩], []⟩ (Op.counterDrop 0) = none :=
  (panic_only_on_overflow ⟨[USIZE_MAX], [⟨⟨0⟩⟩], []⟩ (Op.counterDrop 0)
    (fun j => by
      cases j with
      | zero => exact Nat.le_refl _
      | succ j => exact Nat.zero_le _)).mpr
    ⟨0, ⟨⟨0⟩⟩, rfl, rfl, rfl⟩

/-- Claim C6: destroying a Counter is the only mutating call: Viewer::get,
Counter::get, Viewer::clone and Viewer destruction leave the heap untouched,
and more generally every call that is not a Counter destruction leaves every
cell value unchanged. -/
theorem only_drop_mutates (w : World) (i : Nat) :
    (World.step w (Op.viewerGet i) = some w) ∧
    (World.step w (Op.counterGet i) = some w) ∧
    (∀ w2 : World, World.step w (Op.viewerClone i) = some w2 →
      w2.heap = w.heap) ∧
    (∀ w2 : World, World.step w (Op.viewerDrop i) = some w2 →
      w2.heap = w.heap) ∧
    (∀ (op : Op) (w2 : World), (∀ k, op ≠ Op.counterDrop k) →
      World.step w op = some w2 →
      ∀ j, Heap.load w2.heap j = Heap.load w.heap j) := by
  refine ⟨rfl, rfl, ?_, ?_, ?_⟩
  · intro w2 hstep
    cases hv : w.viewers[i]? with
    | some v => rw [show World.step w (Op.viewerClone i) =
        some ⟨w.heap, w.counters, w.viewers ++ [Viewer.clone v]⟩ from by
          simp [World.step, hv]] at hstep
                cases hstep; rfl
    | none => rw [show World.step w (Op.viewerClone i) = some w from by
        simp [World.step, hv]] at hstep
              cases hstep; rfl
  · intro w2 hstep
    cases hstep
    rfl
  · exact fun op w2 hop hstep j => step_load_eq_of_not_drop w op w2 hop hstep j

theorem only_drop_mutates_witness :
    Heap.load ([0] : Heap) 0 = Heap.load ([] : Heap) 0 :=
  (only_drop_mutates ⟨[], [], []⟩ 0).2.2.2.2 Op.newPair ⟨[0], [⟨⟨0⟩⟩], [⟨0⟩]⟩
    (fun k h => Op.noConfusion h) (by decide) 0

/-- One successful API call never decreases any cell value. -/
theorem step_monotone (w : World) (op : Op) (w2 : World)
    (hstep : World.step w op = some w2) (j : Nat) :
    Heap.load w.heap j ≤ Heap.load w2.heap j := by
  by_cases hop : ∀ k, op ≠ Op.counterDrop k
  · exact Nat.le_of_eq (step_load_eq_of_not_drop w op w2 hop hstep j).symm
  · push_neg at hop
    obtain ⟨k, rfl⟩ := hop
    cases hc : w.counters[k]? with
    | none =>
      rw [show World.step w (Op.counterDrop k) = some w from by
        simp [World.step, hc]] at hstep
      cases hstep
      exact Nat.le_refl _
    | some c =>
      obtain ⟨hlt, hheap, -⟩ := step_drop_heap w k c w2 hc hstep
      rw [hheap]
      by_cases hj : j = c.viewer.cell
      · rw [hj]
        by_cases hlen : c.viewer.cell < w.heap.length
        · rw [Heap.load_store_self _ _ _ hlen]
          exact Nat.le_succ _
        · have h1 : Heap.load w.heap c.viewer.cell = 0 :=
            Heap.load_of_length_le _ _ (Nat.le_of_not_lt hlen)
          rw [h1]
          exact Nat.zero_le _
      · exact Nat.le_of_eq (Heap.load_store_ne _ _ _ _ hj).symm

/-- Claim C7: cell values are non decreasing: along any successful run of API
calls a value read at the end is never smaller than the value read for the
same cell at the start. -/
theorem counts_nondecreasing (w : World) (ops : List Op) (w2 : World)
    (hrun : World.run w ops = some w2) (j : Nat) :
    Heap.load w.heap j ≤ Heap.load w2.heap j := by
  induction ops generalizing w with
  | nil =>
    unfold World.run at hrun
    cases hrun
    exact Nat.le_refl _
  | cons op ops ih =>
    unfold World.run at hrun
    cases hstep : World.step w op with
    | none => rw [hstep] at hrun; exact Option.noConfusion hrun
    | some w1 =>
      rw [hstep] at hrun
      exact Nat.le_trans (step_monotone w op w1 hstep j) (ih w1 hrun)

theorem counts_nondecreasing_witness :
    World.run ⟨[], [], []⟩ [Op.newPair, Op.counterDrop 0] =
      some ⟨[1], [], [⟨0⟩]⟩ ∧
    Heap.load ([] : Heap) 0 ≤ Heap.load ([1] : Heap) 0 :=
  ⟨by decide,
    counts_nondecreasing ⟨[], [], []⟩ [Op.newPair, Op.counterDrop 0]
      ⟨[1], [], [⟨0⟩]⟩ (by decide) 0⟩

/-- Claim C8: Counter::new, and Counter::default which is defined as
Counter::new, return a single Counter owning a fresh internal cell holding 0;
the fresh cell is distinct from every previously allocated cell so no
pre-existing handle can reference it, and the new Counter reads 0. -/
theorem counter_new_spec (h : Heap) :
    (Counter.default h = Counter.new h) ∧
    ((Counter.new h).1.viewer.cell = h.length) ∧
    ((Counter.new h).2 = h ++ [0]) ∧
    (Counter.get (Counter.new h).2 (Counter.new h).1 = 0) ∧
    (∀ v : Viewer, v.cell < h.length → v.cell ≠ (Counter.new h).1.viewer.cell) := by
  refine ⟨rfl, rfl, rfl, ?_, ?_⟩
  · show Heap.load (h ++ [0]) h.length = 0
    rw [Heap.load_append_zeros h [0] h.length (by simp),
      Heap.load_of_length_le h h.length (Nat.le_refl _)]
  · intro v hv
    exact Nat.ne_of_lt hv

theorem counter_new_spec_witness :
    Viewer.cell ⟨0⟩ < List.length ([0] : Heap) ∧
    Viewer.cell ⟨0⟩ ≠ (Counter.new [0]).1.viewer.cell :=
  ⟨by decide, (counter_new_spec [0]).2.2.2.2 ⟨0⟩ (by decide)⟩

/- Invariant for the default Viewer claim: a cell that is allocated, holds 0
and is referenced by no live Counter stays that way under every API call. -/

/-- Cell x is allocated, holds 0, and no live Counter references it. -/
def UntrackedZero (w : World) (x : Nat) : Prop :=
  x < w.heap.length ∧ Heap.load w.heap x = 0 ∧
    ∀ c ∈ w.counters, c.viewer.cell ≠ x

theorem untrackedZero_step (w : World) (op : Op) (w2 : World) (x : Nat)
    (hstep : World.step w op = some w2) (hx : UntrackedZero w x) :
    UntrackedZero w2 x := by
  obtain ⟨hlt, hload, hfree⟩ := hx
  have hz1 : ∀ y ∈ ([0] : Heap), y = 0 := by simp
  cases op with
  | newPair =>
    cases hstep
    refine ⟨?_, ?_, ?_⟩
    · show x < (w.heap ++ [0]).length
      simp only [List.length_append, List.length_singleton]
      omega
    · show Heap.load (w.heap ++ [0]) x = 0
      rw [Heap.load_append_zeros _ _ _ hz1]
      exact hload
    · intro c hc
      rcases List.mem_append.mp hc with hmem | hmem
      · exact hfree c hmem
      · rw [List.mem_singleton.mp hmem]
        exact Nat.ne_of_gt hlt
  | counterNew =>
    cases hstep
    refine ⟨?_, ?_, ?_⟩
    · show x < (w.heap ++ [0]).length
      simp only [List.length_append, List.length_singleton]
      omega
    · show Heap.load (w.heap ++ [0]) x = 0
      rw [Heap.load_append_zeros _ _ _ hz1]
      exact hload
    · intro c hc
      rcases List.mem_append.mp hc with hmem | hmem
      · exact hfree c hmem
      · rw [List.mem_singleton.mp hmem]
        exact Nat.ne_of_gt hlt
  | newVec n =>
    cases hstep
    refine ⟨?_, ?_, ?_⟩
    · show x < ((new_vec n w.heap).2).length
      rw [new_vec_heap]
      simp only [List.length_append, List.length_replicate]
      omega
    · show Heap.load (new_vec n w.heap).2 x = 0
      rw [new_vec_heap,
        Heap.load_append_zeros _ _ _ (fun y hy => List.eq_of_mem_replicate hy)]
      exact hload
    · intro c hc
      rcases List.mem_append.mp hc with hmem | hmem
      · exact hfree c hmem
      · have := new_vec_cells_fresh n w.heap c hmem
        omega
  | viewerDefault =>
    cases hstep
    refine ⟨?_, ?_, hfree⟩
    · show x < (w.heap ++ [0]).length
      simp only [List.length_append, List.length_singleton]
      omega
    · show Heap.load (w.heap ++ [0]) x = 0
      rw [Heap.load_append_zeros _ _ _ hz1]
      exact hload
  | viewerGet i =>
    cases hstep
    exact ⟨hlt, hload, hfree⟩
  | counterGet i =>
    cases hstep
    exact ⟨hlt, hload, hfree⟩
  | viewerClone i =>
    cases hv : w.viewers[i]? with
    | some v =>
      rw [show World.step w (Op.viewerClone i) =
          some ⟨w.heap, w.counters, w.viewers ++ [Viewer.clone v]⟩ from by
        simp [World.step, hv]] at hstep
      cases hstep
      exact ⟨hlt, hload, hfree⟩
    | none =>
      rw [show World.step w (Op.viewerClone i) = some w from by
        simp [World.step, hv]] at hstep
      cases hstep
      exact ⟨hlt, hload, hfree⟩
  | viewerDrop i =>
    cases hstep
    exact ⟨hlt, hload, hfree⟩
  | counterDrop i =>
    cases hc : w.counters[i]? with
    | none =>
      rw [show World.step w (Op.counterDrop i) = some w from by
        simp [World.step, hc]] at hstep
      cases hstep
      exact ⟨hlt, hload, hfree⟩
    | some c =>
      obtain ⟨-, hheap, hcnt⟩ := step_drop_heap w i c w2 hc hstep
      have hcx : c.viewer.cell ≠ x := hfree c (List.getElem?_mem hc)
      refine ⟨?_, ?_, ?_⟩
      · rw [hheap, Heap.length_store]
        exact hlt
      · rw [hheap, Heap.load_store_ne _ _ _ _ (fun e => hcx e.symm)]
        exact hload
      · intro d hd
        rw [hcnt] at hd
        exact hfree d (List.mem_of_mem_eraseIdx hd)

theorem untrackedZero_run (w : World) (ops : List Op) (w2 : World) (x : Nat)
    (hrun : World.run w ops = some w2) (hx : UntrackedZero w x) :
    UntrackedZero w2 x := by
  induction ops generalizing w with
  | nil =>
    unfold World.run at hrun
    cases hrun
    exact hx
  | cons op ops ih =>
    unfold World.run at hrun
    cases hstep : World.step w op with
    | none => rw [hstep] at hrun; exact Option.noConfusion hrun
    | some w1 =>
      rw [hstep] at hrun
      exact ih w1 hrun (untrackedZero_step w op w1 x hstep hx)

/-- Claim C10: Viewer implements Default; a default constructed Viewer wraps
a fresh zero cell that no Counter references, so its get returns 0 right away
and still returns 0 after any successful run of further API calls from a well
formed world (one whose live Counters reference allocated cells). -/
theorem default_viewer_always_zero (w : World)
    (hwf : ∀ c ∈ w.counters, c.viewer.cell < w.heap.length)
    (ops : List Op) (w2 : World)
    (hrun : World.run
      ⟨(Viewer.default w.heap).2, w.counters,
        w.viewers ++ [(Viewer.default w.heap).1]⟩ ops = some w2) :
    Viewer.get (Viewer.default w.heap).2 (Viewer.default w.heap).1 = 0 ∧
    Viewer.get w2.heap (Viewer.default w.heap).1 = 0 := by
  have hload0 : Heap.load (w.heap ++ [0]) w.heap.length = 0 := by
    rw [Heap.load_append_zeros _ _ _ (by simp),
      Heap.load_of_length_le w.heap _ (Nat.le_refl _)]
  have hinit : UntrackedZero
      ⟨(Viewer.default w.heap).2, w.counters,
        w.viewers ++ [(Viewer.default w.heap).1]⟩ w.heap.length := by
    refine ⟨?_, hload0, ?_⟩
    · show w.heap.length < (w.heap ++ [0]).length
      simp
    · intro c hc
      exact Nat.ne_of_lt (hwf c hc)
  have hfin := untrackedZero_run _ ops w2 w.heap.length hrun hinit
  exact ⟨hload0, hfin.2.1⟩

theorem default_viewer_always_zero_witness :
    Viewer.get (Viewer.default ([] : Heap)).2 (Viewer.default ([] : Heap)).1 = 0 ∧
    Viewer.get ([0, 1] : Heap) (Viewer.default ([] : Heap)).1 = 0 :=
  default_viewer_always_zero ⟨[], [], []⟩ (by simp)
    [Op.newPair, Op.counterDrop 0] ⟨[0, 1], [], [⟨0⟩, ⟨1⟩]⟩ (by decide)

end Dropcount
